import Mathlib

/-!
# Segment timeline engine — verification of the specification against the code

Shallow embedding of the segment timeline engine of the AI media cutter
(Vue front end).  Times are modelled as exact rationals (`ℚ`); a time *string*
`"HH:MM:SS.sss"` is abstracted to the list of its `:`-separated numeric parts,
which is exactly the information `split(':')` + `parseFloat` extracts from it.
All definitions are translated from the source files; definitions whose name
ends in `Spec` follow the specification's words instead and are compared with
the source-level ones in the theorems.
-/

/- ### TimeCodec (`parseTime` / `formatTime`, Home view script lines 60-78) -/

/-- JS `a % b` for the non-negative operands used by `formatTime`:
`a - b * ⌊a / b⌋`. -/
def jsMod (a b : ℚ) : ℚ := a - b * ⌊a / b⌋

/-- `Number.prototype.toFixed(3)` followed by `parseFloat`: exact rounding of
the value to three decimal places. -/
def toFixed3 (q : ℚ) : ℚ := (round (1000 * q) : ℤ) / 1000

/-- `parseTime` (Home view script lines 60-68).  The argument is the list of
numeric parts of the time string: three parts are read as `H:M:S`, two as
`M:S`; otherwise the code falls back to `parseFloat` of the whole string,
which reads the leading numeral. -/
def parseTime : List ℚ → ℚ
  | [h, m, s] => h * 3600 + m * 60 + s
  | [m, s] => m * 60 + s
  | s :: _ => s
  | [] => 0

/-- `formatTime` (Home view script lines 70-78): hours `⌊x/3600⌋`, minutes
`⌊(x % 3600)/60⌋`, seconds `(x % 60).toFixed(3)`; the hour part is emitted
only when positive.  Zero-padding of the emitted digits does not change the
parsed numeric value, so the result is abstracted to its numeric parts. -/
def formatTime (seconds : ℚ) : List ℚ :=
  if ⌊seconds / 3600⌋ > 0 then
    [(⌊seconds / 3600⌋ : ℤ), (⌊jsMod seconds 3600 / 60⌋ : ℤ), toFixed3 (jsMod seconds 60)]
  else
    [(⌊jsMod seconds 3600 / 60⌋ : ℤ), toFixed3 (jsMod seconds 60)]

theorem toFixed3_close (y : ℚ) : |toFixed3 y - y| ≤ 1 / 2000 := by
  have h := abs_sub_round (1000 * y)
  have e : toFixed3 y - y = -((1000 * y - (round (1000 * y) : ℤ)) / 1000) := by
    rw [toFixed3]; ring
  rw [e, abs_neg, abs_div, abs_of_pos (by norm_num : (0:ℚ) < 1000)]
  rw [div_le_div_iff₀ (by norm_num) (by norm_num)]
  nlinarith [h]

theorem floor_jsMod_div (x : ℚ) :
    ⌊jsMod x 3600 / 60⌋ = ⌊x / 60⌋ - 60 * ⌊x / 3600⌋ := by
  have e : jsMod x 3600 / 60 = x / 60 - ((60 * ⌊x / 3600⌋ : ℤ) : ℚ) := by
    rw [jsMod]; push_cast; ring
  rw [e, Int.floor_sub_int]

/-- C6: the formatted numeric parts parse back to the original value up to the
three-decimal rounding of the seconds part — well within one millisecond. -/
theorem timeCodec_roundTrip (x : ℚ) (hx : 0 ≤ x) :
    |parseTime (formatTime x) - x| ≤ 1 / 1000 := by
  have key : parseTime (formatTime x) - x = toFixed3 (jsMod x 60) - jsMod x 60 := by
    rw [formatTime]
    by_cases hh : ⌊x / 3600⌋ > 0
    · rw [if_pos hh]
      simp only [parseTime]
      rw [floor_jsMod_div]
      have e60 : jsMod x 60 = x - 60 * (⌊x / 60⌋ : ℤ) := by rw [jsMod]
      rw [e60]
      push_cast
      ring
    · have h0 : ⌊x / 3600⌋ = 0 :=
        le_antisymm (not_lt.mp hh) (Int.floor_nonneg.mpr (by positivity))
      rw [if_neg hh]
      simp only [parseTime]
      rw [floor_jsMod_div, h0]
      have e60 : jsMod x 60 = x - 60 * (⌊x / 60⌋ : ℤ) := by rw [jsMod]
      rw [e60]
      push_cast
      ring
  rw [key]
  calc |toFixed3 (jsMod x 60) - jsMod x 60| ≤ 1 / 2000 := toFixed3_close _
    _ ≤ 1 / 1000 := by norm_num

theorem timeCodec_roundTrip_witness :
    (0 : ℚ) ≤ 5 / 2 ∧ |parseTime (formatTime (5 / 2)) - 5 / 2| ≤ 1 / 1000 :=
  ⟨by norm_num, timeCodec_roundTrip (5 / 2) (by norm_num)⟩

/- ### OffsetMap (`adjustTimestamp`, Home view script lines 80-91) -/

/-- A silence-removal breakpoint (`SegmentOffset` in `types/index.ts`). -/
structure SegmentOffset where
  min_time : ℚ
  offset : ℚ
deriving Repr, DecidableEq

/-- The breakpoint scan inside `adjustTimestamp`: walk the list, remember the
offset of every breakpoint with `min_time ≤ t`, stop at the first one with
`min_time > t`. -/
def scanOffsets (t : ℚ) : List SegmentOffset → ℚ → ℚ
  | [], acc => acc
  | o :: rest, acc => if t ≥ o.min_time then scanOffsets t rest o.offset else acc

/-- `adjustTimestamp`, on the parsed numeric timestamp (the surrounding
`parseTime`/`formatTime` string conversion is treated separately). -/
def adjustTimestamp (t : ℚ) (offsets : List SegmentOffset) : ℚ :=
  t + scanOffsets t offsets 0

/-- Follows the specification's words: the applied offset is that of the *last*
breakpoint whose `min_time ≤ t`, and `0` when no breakpoint qualifies. -/
def lastQualifyingOffset (t : ℚ) (offsets : List SegmentOffset) : ℚ :=
  match (offsets.filter fun o => decide (o.min_time ≤ t)).getLast? with
  | some o => o.offset
  | none => 0

theorem scanOffsets_eq_getLast (t : ℚ) :
    ∀ (l : List SegmentOffset) (acc : ℚ),
      List.Sorted (fun a b => a.min_time ≤ b.min_time) l →
      scanOffsets t l acc =
        (match (l.filter fun o => decide (o.min_time ≤ t)).getLast? with
         | some o => o.offset
         | none => acc)
  | [], acc, _ => rfl
  | o :: rest, acc, hs => by
    rcases List.sorted_cons.mp hs with ⟨hhead, hrest⟩
    by_cases ht : o.min_time ≤ t
    · rw [scanOffsets, if_pos (by exact ht)]
      rw [scanOffsets_eq_getLast t rest o.offset hrest]
      have hf : (o :: rest).filter (fun p => decide (p.min_time ≤ t)) =
          o :: rest.filter (fun p => decide (p.min_time ≤ t)) := by
        rw [List.filter_cons_of_pos (by simpa using ht)]
      rw [hf]
      cases hcase : rest.filter (fun p => decide (p.min_time ≤ t)) with
      | nil => rfl
      | cons q qs =>
        rw [List.getLast?_cons_cons]
        cases hq : (q :: qs).getLast? with
        | none => simp [List.getLast?_eq_none_iff] at hq
        | some x => rfl
    · rw [scanOffsets, if_neg (by exact ht)]
      have hf : (o :: rest).filter (fun p => decide (p.min_time ≤ t)) = [] := by
        rw [List.filter_eq_nil_iff]
        intro a ha
        rcases List.mem_cons.mp ha with rfl | ha'
        · simpa using ht
        · have : o.min_time ≤ a.min_time := hhead a ha'
          simp only [decide_eq_true_eq]
          intro hle
          exact ht (le_trans this hle)
      rw [hf]
      rfl

/-- C1: for a breakpoint list sorted ascending by `min_time`, `adjustTimestamp`
adds the offset of the last breakpoint with `min_time ≤ t` (zero when none
qualifies); on `[{0,0},{30,5}]`, `20` maps to `20` and `40` maps to `45`. -/
theorem adjustTimestamp_spec (t : ℚ) (offsets : List SegmentOffset)
    (hs : List.Sorted (fun a b => a.min_time ≤ b.min_time) offsets) :
    adjustTimestamp t offsets = t + lastQualifyingOffset t offsets ∧
    adjustTimestamp 20 [⟨0, 0⟩, ⟨30, 5⟩] = 20 ∧
    adjustTimestamp 40 [⟨0, 0⟩, ⟨30, 5⟩] = 45 := by
  refine ⟨?_, by norm_num [adjustTimestamp, scanOffsets], by norm_num [adjustTimestamp, scanOffsets]⟩
  rw [adjustTimestamp, lastQualifyingOffset, scanOffsets_eq_getLast t offsets 0 hs]

theorem adjustTimestamp_spec_witness :
    List.Sorted (fun a b : SegmentOffset => a.min_time ≤ b.min_time) [⟨0, 0⟩, ⟨30, 5⟩] ∧
    adjustTimestamp 40 [⟨0, 0⟩, ⟨30, 5⟩] =
      40 + lastQualifyingOffset 40 [⟨0, 0⟩, ⟨30, 5⟩] :=
  ⟨by norm_num [List.sorted_cons],
   (adjustTimestamp_spec 40 [⟨0, 0⟩, ⟨30, 5⟩] (by norm_num [List.sorted_cons])).1⟩

/- ### ClipAssembler (`exportClips`, Home view script lines 585-694) -/

/-- A clip sub-segment `{start, end}` with its parsed numeric bounds
(`end` is a Lean keyword, hence `end_`). -/
structure SubSegment where
  start : ℚ
  end_ : ℚ
deriving Repr, DecidableEq

/-- A transcript segment as the slicing loop consumes it: the `parseTime` of
`start`/`end` together with the carried-over `text` and `speaker`.  The cues
pushed onto `clipTranscript` are of the same shape (numeric local times before
`formatTime`). -/
structure TimedSegment where
  start : ℚ
  end_ : ℚ
  text : String
  speaker : String
deriving Repr, DecidableEq

/-- Pad & clamp of one clip sub-segment (`exportClips`):
`start' = max(0, start - prePadding)`, `end' = min(maxDuration, end + postPadding)`. -/
def padClampOne (prePadding postPadding maxDuration : ℚ) (s : SubSegment) : SubSegment :=
  { start := max 0 (s.start - prePadding), end_ := min maxDuration (s.end_ + postPadding) }

/-- The map applying `padClampOne` to every sub-segment of a clip. -/
def padClamp (prePadding postPadding maxDuration : ℚ) (subs : List SubSegment) : List SubSegment :=
  subs.map (padClampOne prePadding postPadding maxDuration)

/-- The cues emitted for one padded/clamped sub-segment at running offset
`off`: filter the transcript for intersecting segments
(`max(tStart, segStart) < min(tEnd, segEnd)`), then for each one push a cue at
`off + (effStart - segStart) .. off + (effEnd - segStart)` guarded by
`effEnd > effStart`. -/
def sliceOne (transcript : List TimedSegment) (sub : SubSegment) (off : ℚ) : List TimedSegment :=
  (transcript.filter fun t => decide (max t.start sub.start < min t.end_ sub.end_)).filterMap
    fun t =>
      if min t.end_ sub.end_ > max t.start sub.start then
        some { start := off + (max t.start sub.start - sub.start),
               end_ := off + (min t.end_ sub.end_ - sub.start),
               text := t.text, speaker := t.speaker }
      else none

/-- The slicing loop of `exportClips`: walk the sub-segments in order, emit the
cues of each, and advance the running offset by the sub-segment's own duration
`segEnd - segStart`. -/
def sliceClip (transcript : List TimedSegment) : List SubSegment → ℚ → List TimedSegment
  | [], _ => []
  | sub :: rest, off =>
      sliceOne transcript sub off ++
        sliceClip transcript rest (off + (sub.end_ - sub.start))

/-- Follows the specification's words: one cue per intersecting transcript
segment, at the intersection translated into clip-local time. -/
def sliceOneSpec (transcript : List TimedSegment) (sub : SubSegment) (off : ℚ) :
    List TimedSegment :=
  (transcript.filter fun t => decide (max t.start sub.start < min t.end_ sub.end_)).map
    fun t =>
      { start := off + (max t.start sub.start - sub.start),
        end_ := off + (min t.end_ sub.end_ - sub.start),
        text := t.text, speaker := t.speaker }

/-- Follows the specification's words: the running offset starts at the given
value and advances by each sub-segment's own duration, not by the intersection
extent. -/
def sliceClipSpec (transcript : List TimedSegment) : List SubSegment → ℚ → List TimedSegment
  | [], _ => []
  | sub :: rest, off =>
      sliceOneSpec transcript sub off ++
        sliceClipSpec transcript rest (off + (sub.end_ - sub.start))

theorem sliceOne_eq_spec (transcript : List TimedSegment) (sub : SubSegment) (off : ℚ) :
    sliceOne transcript sub off = sliceOneSpec transcript sub off := by
  rw [sliceOne, sliceOneSpec, ← List.filterMap_eq_map]
  refine List.filterMap_congr ?_
  intro t ht
  have hcond := (List.mem_filter.mp ht).2
  rw [decide_eq_true_eq] at hcond
  simp only [Function.comp]
  rw [if_pos hcond]

/-- C2: the slicing loop emits exactly one cue per intersecting transcript
segment, with clip-local times `offset + (intersection - segStart)`, the
running offset advancing by each sub-segment's own duration. -/
theorem sliceClip_eq_spec (transcript : List TimedSegment) (subs : List SubSegment) (off : ℚ) :
    sliceClip transcript subs off = sliceClipSpec transcript subs off := by
  induction subs generalizing off with
  | nil => rfl
  | cons sub rest ih =>
    rw [sliceClip, sliceClipSpec, sliceOne_eq_spec, ih]

/-- C3 counterexample: with transcript segment `[2,8]`, clip sub-segment
`[0,10]` and `prePadding = 1`, the padded start `-1` clamps back to `0`, so the
emitted cue still covers clip-local `[2,8]` — not `[3,9]` as the claim
states. -/
theorem clipSlicing_padding_counterexample :
    sliceClip [⟨2, 8, "t", "s"⟩] (padClamp 1 0 100 [⟨0, 10⟩]) 0 = [⟨2, 8, "t", "s"⟩] ∧
    sliceClip [⟨2, 8, "t", "s"⟩] (padClamp 1 0 100 [⟨0, 10⟩]) 0 ≠ [⟨3, 9, "t", "s"⟩] := by
  constructor <;>
    norm_num [sliceClip, sliceOne, padClamp, padClampOne, List.filter,
      List.filterMap_cons, max_def, min_def]

/-- C3 amended: with no padding the cue covers clip-local `[2,8]`, and with
`prePadding = 1` the sub-segment `[0,10]` pads to `[-1,10]` and clamps back to
`[0,10]`, so the origin does not move and the cue again covers `[2,8]`; the
local start shifts only by the effective origin shift `start - start'`, which
is `0` here. -/
theorem clipSlicing_padding_amended :
    sliceClip [⟨2, 8, "t", "s"⟩] (padClamp 0 0 100 [⟨0, 10⟩]) 0 = [⟨2, 8, "t", "s"⟩] ∧
    padClamp 1 0 100 [⟨0, 10⟩] = [⟨0, 10⟩] ∧
    sliceClip [⟨2, 8, "t", "s"⟩] (padClamp 1 0 100 [⟨0, 10⟩]) 0 = [⟨2, 8, "t", "s"⟩] := by
  refine ⟨?_, ?_, ?_⟩ <;>
    norm_num [sliceClip, sliceOne, padClamp, padClampOne, List.filter,
      List.filterMap_cons, max_def, min_def]

/-- C4 counterexample: the clamp can invert the interval when the media
duration lies below the padded start.  Sub-segment `[5,5]` (so `end ≥ start`),
no padding, `maxDuration = 3`: the result is `start' = 5 > end' = 3`. -/
theorem padClamp_inversion_counterexample :
    (padClampOne 0 0 3 ⟨5, 5⟩).start = 5 ∧ (padClampOne 0 0 3 ⟨5, 5⟩).end_ = 3 ∧
    ¬ (padClampOne 0 0 3 ⟨5, 5⟩).start ≤ (padClampOne 0 0 3 ⟨5, 5⟩).end_ := by
  refine ⟨?_, ?_, ?_⟩ <;> norm_num [padClampOne, max_def, min_def]

/-- C4 amended: the pad-and-clamp step computes
`start' = max(0, start - prePad)` and `end' = min(maxDuration, end + postPad)`,
and the interval is never inverted provided additionally the media duration is
not below the padded/clamped start (`max 0 (start - prePad) ≤ maxDuration`),
which holds for any sub-segment lying inside the media. -/
theorem padClamp_no_inversion (prePad postPad maxDuration : ℚ) (s : SubSegment)
    (hstart : 0 ≤ s.start) (hse : s.start ≤ s.end_)
    (hpre : 0 ≤ prePad) (hpost : 0 ≤ postPad)
    (hdur : max 0 (s.start - prePad) ≤ maxDuration) :
    (padClampOne prePad postPad maxDuration s).start = max 0 (s.start - prePad) ∧
    (padClampOne prePad postPad maxDuration s).end_ = min maxDuration (s.end_ + postPad) ∧
    (padClampOne prePad postPad maxDuration s).start ≤
      (padClampOne prePad postPad maxDuration s).end_ := by
  refine ⟨rfl, rfl, ?_⟩
  rw [padClampOne]
  have h1 : max 0 (s.start - prePad) ≤ s.end_ + postPad := by
    rw [max_le_iff]
    constructor <;> linarith
  exact le_min hdur h1

theorem padClamp_no_inversion_witness :
    ((0 : ℚ) ≤ 5 ∧ (5 : ℚ) ≤ 6 ∧ (0 : ℚ) ≤ 1 ∧ (0 : ℚ) ≤ 2 ∧
      max 0 ((5 : ℚ) - 1) ≤ 100) ∧
    (padClampOne 1 2 100 ⟨5, 6⟩).start ≤ (padClampOne 1 2 100 ⟨5, 6⟩).end_ :=
  ⟨by norm_num,
   (padClamp_no_inversion 1 2 100 ⟨5, 6⟩ (by norm_num) (by norm_num) (by norm_num)
      (by norm_num) (by norm_num)).2.2⟩

/- ### SegmentStore (Editor component script) -/

/-- A transcript segment as stored (`TranscriptSegment` in `types/index.ts`):
`start`/`end` kept as time strings (`end` is a Lean keyword, hence `end_`),
`text` and `speaker` free text. -/
structure TranscriptSegment where
  start : String
  end_ : String
  text : String
  speaker : String
deriving Repr, DecidableEq, Inhabited

/-- The elements of `l` at positions outside `selected`, in their original
order — the claims' description of what a multi-element removal leaves. -/
def keepUnselected {α : Type} (l : List α) (selected : List ℕ) : List α :=
  (List.range l.length).filterMap fun j => if j ∈ selected then none else l[j]?

/-- The unselected positions strictly after `first`, used to decompose
`keepUnselected` and the merge result. -/
def unselectedAfter {α : Type} (l : List α) (selected : List ℕ) (first : ℕ) : List α :=
  ((List.range (l.length - (first + 1))).map fun x => (first + 1) + x).filterMap
    fun j => if j ∈ selected then none else l[j]?

theorem filterMap_range_take {α : Type} (l : List α) (h : ℕ → Option α) :
    ∀ k : ℕ, (∀ j, j < k → h j = l[j]?) → (List.range k).filterMap h = l.take k
  | 0, _ => rfl
  | k + 1, hh => by
    rw [List.range_succ, List.filterMap_append,
      filterMap_range_take l h k (fun j hj => hh j (Nat.lt_succ_of_lt hj)), List.take_succ]
    congr 1
    have hk := hh k (Nat.lt_succ_self k)
    cases hl : l[k]? <;> simp [List.filterMap_cons, hk, hl]

theorem foldr_eraseIdx_eq {α : Type} (l : List α) :
    ∀ asc : List ℕ, List.Sorted (· < ·) asc → (∀ i ∈ asc, i < l.length) →
      asc.foldr (fun i acc => acc.eraseIdx i) l =
        (List.range l.length).filterMap fun j => if j ∈ asc then none else l[j]?
  | [], _, _ => by
    rw [List.foldr_nil,
      filterMap_range_take l _ l.length (fun j _ => by simp), List.take_length]
  | i :: rest, hs, hv => by
    rcases List.sorted_cons.mp hs with ⟨hlt, hrest⟩
    have hi : i < l.length := hv i (List.mem_cons_self i rest)
    have hv' : ∀ j ∈ rest, j < l.length := fun j hj => hv j (List.mem_cons_of_mem i hj)
    rw [List.foldr_cons, foldr_eraseIdx_eq l rest hrest hv']
    have hsplit : List.range l.length =
        List.range (i + 1) ++ (List.range (l.length - (i + 1))).map fun x => (i + 1) + x := by
      rw [← List.range_add]
      congr 1
      omega
    rw [hsplit, List.filterMap_append, List.filterMap_append]
    have hfront : (List.range (i + 1)).filterMap
        (fun j => if j ∈ rest then none else l[j]?) = l.take (i + 1) := by
      refine filterMap_range_take l _ (i + 1) ?_
      intro j hj
      rw [if_neg (fun hmem => absurd (hlt j hmem) (by omega))]
    rw [hfront]
    have htake : l.take (i + 1) = l.take i ++ [l[i]] := by
      rw [List.take_succ, List.getElem?_eq_getElem hi]
      rfl
    have hlen_take : (l.take (i + 1)).length = i + 1 := by
      rw [List.length_take]
      omega
    have hlen_ti : (l.take i).length = i := by
      rw [List.length_take]
      omega
    rw [List.eraseIdx_append_of_lt_length (by rw [hlen_take]; omega)]
    have herase : (l.take (i + 1)).eraseIdx i = l.take i := by
      rw [htake, List.eraseIdx_append_of_length_le (le_of_eq hlen_ti), hlen_ti]
      simp
    rw [herase]
    have hfront2 : (List.range (i + 1)).filterMap
        (fun j => if j ∈ i :: rest then none else l[j]?) = l.take i := by
      rw [List.range_succ, List.filterMap_append]
      have h1 : (List.range i).filterMap
          (fun j => if j ∈ i :: rest then none else l[j]?) = l.take i := by
        refine filterMap_range_take l _ i ?_
        intro j hj
        rw [if_neg]
        intro hmem
        rcases List.mem_cons.mp hmem with rfl | hmem'
        · omega
        · exact absurd (hlt j hmem') (by omega)
      have h2 : List.filterMap
          (fun j => if j ∈ i :: rest then none else l[j]?) [i] = [] := by
        simp [List.filterMap_cons]
      rw [h1, h2, List.append_nil]
    rw [hfront2]
    have htail : List.filterMap (fun j => if j ∈ i :: rest then none else l[j]?)
          ((List.range (l.length - (i + 1))).map fun x => (i + 1) + x) =
        List.filterMap (fun j => if j ∈ rest then none else l[j]?)
          ((List.range (l.length - (i + 1))).map fun x => (i + 1) + x) := by
      refine List.filterMap_congr ?_
      intro x hx
      rcases List.mem_map.mp hx with ⟨y, _, rfl⟩
      by_cases hmem : (i + 1) + y ∈ rest
      · rw [if_pos (List.mem_cons_of_mem i hmem), if_pos hmem]
      · rw [if_neg hmem, if_neg]
        intro hc
        rcases List.mem_cons.mp hc with h | h
        · omega
        · exact hmem h
    rw [htail]

theorem sorted_head_add_length_lt (i : ℕ) (tl : List ℕ) (n : ℕ)
    (hs : List.Sorted (· < ·) (i :: tl)) (hv : ∀ j ∈ i :: tl, j < n) :
    i + tl.length < n := by
  rcases List.sorted_cons.mp hs with ⟨hlt, htl⟩
  have hi : i < n := hv i (List.mem_cons_self i tl)
  have hsub : tl ⊆ List.range' (i + 1) (n - (i + 1)) := by
    intro j hj
    rw [List.mem_range'_1]
    have h1 := hlt j hj
    have h2 := hv j (List.mem_cons_of_mem i hj)
    omega
  have hle := ((htl.nodup).subperm hsub).length_le
  rw [List.length_range'] at hle
  omega

theorem length_foldr_eraseIdx {α : Type} (l : List α) :
    ∀ asc : List ℕ, List.Sorted (· < ·) asc → (∀ i ∈ asc, i < l.length) →
      (asc.foldr (fun i acc => acc.eraseIdx i) l).length = l.length - asc.length
  | [], _, _ => by simp
  | i :: rest, hs, hv => by
    rcases List.sorted_cons.mp hs with ⟨hlt, hrest⟩
    have hv' : ∀ j ∈ rest, j < l.length := fun j hj => hv j (List.mem_cons_of_mem i hj)
    have hbound := sorted_head_add_length_lt i rest l.length hs hv
    rw [List.foldr_cons, List.length_eraseIdx,
      length_foldr_eraseIdx l rest hrest hv',
      if_pos (by omega : i < l.length - rest.length), List.length_cons]
    omega

theorem insertionSort_ge_eq_reverse (sel : List ℕ) :
    sel.insertionSort (· ≥ ·) = (sel.insertionSort (· ≤ ·)).reverse := by
  haveI : IsAntisymm ℕ (· ≥ ·) := ⟨fun a b h1 h2 => le_antisymm h2 h1⟩
  refine List.eq_of_perm_of_sorted ?_ (List.sorted_insertionSort _ sel) ?_
  · exact (List.perm_insertionSort _ sel).trans
      ((List.perm_insertionSort (· ≤ ·) sel).symm.trans (List.reverse_perm _).symm)
  · exact List.pairwise_reverse.mpr (List.sorted_insertionSort (· ≤ ·) sel)

theorem foldr_eraseIdx_sort_eq {α : Type} (l : List α) (sel : List ℕ)
    (hnd : sel.Nodup) (hv : ∀ i ∈ sel, i < l.length) :
    (sel.insertionSort (· ≤ ·)).foldr (fun i acc => acc.eraseIdx i) l =
      keepUnselected l sel := by
  have hperm := List.perm_insertionSort (· ≤ ·) sel
  have hsorted : List.Sorted (· < ·) (sel.insertionSort (· ≤ ·)) :=
    (List.sorted_insertionSort (· ≤ ·) sel).lt_of_le (hperm.nodup_iff.mpr hnd)
  have hvasc : ∀ i ∈ sel.insertionSort (· ≤ ·), i < l.length :=
    fun i hi => hv i (hperm.mem_iff.mp hi)
  rw [foldr_eraseIdx_eq l _ hsorted hvasc, keepUnselected]
  refine List.filterMap_congr ?_
  intro j _
  by_cases hj : j ∈ sel
  · rw [if_pos (hperm.mem_iff.mpr hj), if_pos hj]
  · rw [if_neg (fun hc => hj (hperm.mem_iff.mp hc)), if_neg hj]

theorem length_foldr_eraseIdx_sort {α : Type} (l : List α) (sel : List ℕ)
    (hnd : sel.Nodup) (hv : ∀ i ∈ sel, i < l.length) :
    ((sel.insertionSort (· ≤ ·)).foldr (fun i acc => acc.eraseIdx i) l).length =
      l.length - sel.length := by
  have hperm := List.perm_insertionSort (· ≤ ·) sel
  have hsorted : List.Sorted (· < ·) (sel.insertionSort (· ≤ ·)) :=
    (List.sorted_insertionSort (· ≤ ·) sel).lt_of_le (hperm.nodup_iff.mpr hnd)
  have hvasc : ∀ i ∈ sel.insertionSort (· ≤ ·), i < l.length :=
    fun i hi => hv i (hperm.mem_iff.mp hi)
  rw [length_foldr_eraseIdx l _ hsorted hvasc, List.length_insertionSort]

theorem insertIdx_append_length {α : Type} :
    ∀ (A B : List α) (x : α), (A ++ B).insertIdx A.length x = A ++ x :: B
  | [], B, x => by simp
  | a :: A, B, x => by
    rw [List.cons_append, List.length_cons, List.insertIdx_succ_cons,
      insertIdx_append_length A B x, List.cons_append]

theorem keepUnselected_split {α : Type} (l : List α) (sel : List ℕ) (first : ℕ)
    (hmem : first ∈ sel) (hmin : ∀ j ∈ sel, first ≤ j) (hlen : first < l.length) :
    keepUnselected l sel = l.take first ++ unselectedAfter l sel first := by
  rw [keepUnselected, unselectedAfter]
  have hsplit : List.range l.length =
      List.range (first + 1) ++
        (List.range (l.length - (first + 1))).map fun x => (first + 1) + x := by
    rw [← List.range_add]
    congr 1
    omega
  rw [hsplit, List.filterMap_append]
  congr 1
  rw [List.range_succ, List.filterMap_append]
  have h1 : (List.range first).filterMap
      (fun j => if j ∈ sel then none else l[j]?) = l.take first := by
    refine filterMap_range_take l _ first ?_
    intro j hj
    rw [if_neg (fun hc => absurd (hmin j hc) (by omega))]
  have h2 : List.filterMap (fun j => if j ∈ sel then none else l[j]?) [first] = [] := by
    simp [List.filterMap_cons, if_pos hmem]
  rw [h1, h2, List.append_nil]

/-- The merged segment `mergeSelected` builds from the ascending selected
indices — exactly the record in the code, which is also the claims' wording:
start of the first selected segment, end of the last selected segment, speaker
of the first, and the selected texts joined with single spaces in index order
(`indices.map(i => segments[i].text).join(' ')`). -/
def mergedSegment (segments : List TranscriptSegment) (indices : List ℕ) :
    TranscriptSegment :=
  { start := (segments.getD (indices.headD 0) default).start,
    end_ := (segments.getD (indices.getLastD 0) default).end_,
    speaker := (segments.getD (indices.headD 0) default).speaker,
    text := String.intercalate " " (indices.map fun i => (segments.getD i default).text) }

/-- `mergeSelected` (Editor script lines 90-120): sort the selected indices
ascending (`sort((a, b) => a - b)`); with fewer than two selected indices do
nothing; otherwise remove the selected elements by `splice(indices[i], 1)`
from the back of the sorted array (descending positions) and insert the merged
segment at the first selected index.  JS reads `segments[i]` are modelled by
`getD` (the theorems assume valid indices). -/
def mergeSelected (segments : List TranscriptSegment) (selected : List ℕ) :
    List TranscriptSegment :=
  let indices := selected.insertionSort (· ≤ ·)
  if indices.length < 2 then segments
  else
    (indices.foldr (fun i acc => acc.eraseIdx i) segments).insertIdx (indices.headD 0)
      (mergedSegment segments indices)

/-- Follows the claim's words: the merged segment replaces the selected
elements at the position of the first (smallest) selected index; every
unselected position keeps its element. -/
def mergeSelectedSpec (segments : List TranscriptSegment) (selected : List ℕ) :
    List TranscriptSegment :=
  let indices := selected.insertionSort (· ≤ ·)
  (List.range segments.length).filterMap fun j =>
    if j = indices.headD 0 then some (mergedSegment segments indices)
    else if j ∈ selected then none else segments[j]?

/-- `deleteSelected` (Editor script lines 73-88): sort the selected indices
descending (`sort((a, b) => b - a)`) and `splice` each in turn, so earlier
removals do not shift the positions of later ones. -/
def deleteSelected (segments : List TranscriptSegment) (selected : List ℕ) :
    List TranscriptSegment :=
  (selected.insertionSort (· ≥ ·)).foldl (fun acc i => acc.eraseIdx i) segments

theorem insertIdx_take_append {α : Type} (l B : List α) (x : α) (k : ℕ)
    (hk : k ≤ l.length) : (l.take k ++ B).insertIdx k x = l.take k ++ x :: B := by
  have h : (l.take k).length = k := by rw [List.length_take]; omega
  have happ := insertIdx_append_length (l.take k) B x
  rw [h] at happ
  exact happ

theorem mergeSelected_parts (segments : List TranscriptSegment) (selected : List ℕ)
    (hnd : selected.Nodup) (hv : ∀ i ∈ selected, i < segments.length)
    (h2 : 2 ≤ selected.length) :
    mergeSelected segments selected =
        segments.take ((selected.insertionSort (· ≤ ·)).headD 0) ++
          mergedSegment segments (selected.insertionSort (· ≤ ·)) ::
            unselectedAfter segments selected ((selected.insertionSort (· ≤ ·)).headD 0) ∧
    mergeSelectedSpec segments selected =
        segments.take ((selected.insertionSort (· ≤ ·)).headD 0) ++
          mergedSegment segments (selected.insertionSort (· ≤ ·)) ::
            unselectedAfter segments selected ((selected.insertionSort (· ≤ ·)).headD 0) ∧
    keepUnselected segments selected =
        segments.take ((selected.insertionSort (· ≤ ·)).headD 0) ++
          unselectedAfter segments selected ((selected.insertionSort (· ≤ ·)).headD 0) ∧
    (mergeSelected segments selected).length = segments.length - (selected.length - 1) := by
  have hlenasc : (selected.insertionSort (· ≤ ·)).length = selected.length :=
    List.length_insertionSort _ _
  have hperm := List.perm_insertionSort (· ≤ ·) selected
  have hsle := List.sorted_insertionSort (· ≤ ·) selected
  obtain ⟨a, tl, hcons⟩ : ∃ a tl, selected.insertionSort (· ≤ ·) = a :: tl := by
    cases hc : selected.insertionSort (· ≤ ·) with
    | nil => rw [hc] at hlenasc; simp at hlenasc; omega
    | cons a tl => exact ⟨a, tl, rfl⟩
  have hhead : (selected.insertionSort (· ≤ ·)).headD 0 = a := by rw [hcons]; rfl
  have hamem : a ∈ selected := hperm.mem_iff.mp (by rw [hcons]; exact List.mem_cons_self a tl)
  have halen : a < segments.length := hv a hamem
  have hmin : ∀ j ∈ selected, a ≤ j := by
    intro j hj
    have hj' : j ∈ selected.insertionSort (· ≤ ·) := hperm.mem_iff.mpr hj
    rw [hcons] at hj'
    rcases List.mem_cons.mp hj' with rfl | hj''
    · exact le_refl j
    · exact (List.sorted_cons.mp (hcons ▸ hsle)).1 j hj''
  have hnotlt : ¬ (selected.insertionSort (· ≤ ·)).length < 2 := by omega
  have hkeep : keepUnselected segments selected =
      segments.take a ++ unselectedAfter segments selected a :=
    keepUnselected_split segments selected a hamem hmin halen
  have hcount : a + selected.length ≤ segments.length := by
    have hsortlt : List.Sorted (· < ·) (selected.insertionSort (· ≤ ·)) :=
      hsle.lt_of_le (hperm.nodup_iff.mpr hnd)
    have hvasc : ∀ i ∈ selected.insertionSort (· ≤ ·), i < segments.length :=
      fun i hi => hv i (hperm.mem_iff.mp hi)
    have := sorted_head_add_length_lt a tl segments.length (hcons ▸ hsortlt)
      (fun j hj => hvasc j (hcons ▸ hj))
    have hlen2 : selected.length = tl.length + 1 := by
      rw [← hlenasc, hcons, List.length_cons]
    omega
  have hmerge : mergeSelected segments selected =
      segments.take a ++ mergedSegment segments (selected.insertionSort (· ≤ ·)) ::
        unselectedAfter segments selected a := by
    simp only [mergeSelected]
    rw [if_neg hnotlt, foldr_eraseIdx_sort_eq segments selected hnd hv, hkeep, hhead]
    exact insertIdx_take_append segments _ _ a (le_of_lt halen)
  have hspec : mergeSelectedSpec segments selected =
      segments.take a ++ mergedSegment segments (selected.insertionSort (· ≤ ·)) ::
        unselectedAfter segments selected a := by
    simp only [mergeSelectedSpec, hhead]
    have hsplit : List.range segments.length =
        List.range (a + 1) ++
          (List.range (segments.length - (a + 1))).map fun x => (a + 1) + x := by
      rw [← List.range_add]
      congr 1
      omega
    rw [hsplit, List.filterMap_append, List.range_succ, List.filterMap_append]
    have h1 : (List.range a).filterMap
        (fun j => if j = a then some (mergedSegment segments (selected.insertionSort (· ≤ ·)))
          else if j ∈ selected then none else segments[j]?) = segments.take a := by
      refine filterMap_range_take segments _ a ?_
      intro j hj
      rw [if_neg (by omega), if_neg (fun hc => absurd (hmin j hc) (by omega))]
    have h2 : List.filterMap
        (fun j => if j = a then some (mergedSegment segments (selected.insertionSort (· ≤ ·)))
          else if j ∈ selected then none else segments[j]?) [a] =
        [mergedSegment segments (selected.insertionSort (· ≤ ·))] := by
      simp [List.filterMap_cons]
    have h3 : List.filterMap
        (fun j => if j = a then some (mergedSegment segments (selected.insertionSort (· ≤ ·)))
          else if j ∈ selected then none else segments[j]?)
          ((List.range (segments.length - (a + 1))).map fun x => (a + 1) + x) =
        unselectedAfter segments selected a := by
      rw [unselectedAfter]
      refine List.filterMap_congr ?_
      intro x hx
      rcases List.mem_map.mp hx with ⟨y, _, rfl⟩
      rw [if_neg (by omega)]
    rw [h1, h2, h3, List.append_assoc, List.singleton_append]
  have hlength : (mergeSelected segments selected).length =
      segments.length - (selected.length - 1) := by
    simp only [mergeSelected]
    rw [if_neg hnotlt, foldr_eraseIdx_sort_eq segments selected hnd hv]
    have hklen : (keepUnselected segments selected).length =
        segments.length - selected.length := by
      rw [← foldr_eraseIdx_sort_eq segments selected hnd hv]
      exact length_foldr_eraseIdx_sort segments selected hnd hv
    rw [hhead, List.length_insertIdx a _ (by rw [hklen]; omega), hklen]
    omega
  rw [hhead]
  exact ⟨hmerge, hspec, hkeep, hlength⟩

/-- C5: with at least two distinct valid selected indices, `mergeSelected`
replaces all selected elements, at the position of the first selected index,
by the single merged segment (first selected start, last selected end, first
selected speaker, selected texts joined in index order — texts of unselected
gap segments are not included), so the store length drops by exactly `n - 1`;
with fewer than two selected indices it is a no-op. -/
theorem mergeSelected_spec_correct :
    (∀ (segments : List TranscriptSegment) (selected : List ℕ),
      selected.Nodup → (∀ i ∈ selected, i < segments.length) → 2 ≤ selected.length →
      mergeSelected segments selected = mergeSelectedSpec segments selected ∧
      (mergeSelected segments selected).length =
        segments.length - (selected.length - 1)) ∧
    (∀ (segments : List TranscriptSegment) (selected : List ℕ),
      selected.length < 2 → mergeSelected segments selected = segments) := by
  constructor
  · intro segments selected hnd hv h2
    obtain ⟨hm, hs, _, hl⟩ := mergeSelected_parts segments selected hnd hv h2
    exact ⟨hm.trans hs.symm, hl⟩
  · intro segments selected hlt
    simp only [mergeSelected]
    rw [if_pos (by rw [List.length_insertionSort]; exact hlt)]

theorem mergeSelected_spec_correct_witness :
    (([1, 3] : List ℕ).Nodup ∧
      (∀ i ∈ ([1, 3] : List ℕ),
        i < ([⟨"0", "1", "a", "A"⟩, ⟨"1", "2", "b", "B"⟩, ⟨"2", "3", "c", "C"⟩,
              ⟨"3", "4", "d", "D"⟩] : List TranscriptSegment).length) ∧
      2 ≤ ([1, 3] : List ℕ).length) ∧
    (mergeSelected
        [⟨"0", "1", "a", "A"⟩, ⟨"1", "2", "b", "B"⟩, ⟨"2", "3", "c", "C"⟩,
         ⟨"3", "4", "d", "D"⟩] [1, 3] =
      mergeSelectedSpec
        [⟨"0", "1", "a", "A"⟩, ⟨"1", "2", "b", "B"⟩, ⟨"2", "3", "c", "C"⟩,
         ⟨"3", "4", "d", "D"⟩] [1, 3] ∧
     (mergeSelected
        [⟨"0", "1", "a", "A"⟩, ⟨"1", "2", "b", "B"⟩, ⟨"2", "3", "c", "C"⟩,
         ⟨"3", "4", "d", "D"⟩] [1, 3]).length = 4 - (2 - 1)) :=
  ⟨⟨by decide, by decide, by decide⟩,
   mergeSelected_spec_correct.1 _ [1, 3] (by decide) (by decide) (by decide)⟩

/-- C7: `deleteSelected` removes exactly the elements at the selected indices
(processing them in descending order so earlier removals do not shift later
positions), keeping every other element in order; deleting `{0, 2}` from a
3-element store leaves exactly the element that was at index 1. -/
theorem deleteSelected_spec :
    (∀ (segments : List TranscriptSegment) (selected : List ℕ),
      selected.Nodup → (∀ i ∈ selected, i < segments.length) →
      deleteSelected segments selected = keepUnselected segments selected) ∧
    ∀ a b c : TranscriptSegment, deleteSelected [a, b, c] [0, 2] = [b] := by
  constructor
  · intro segments selected hnd hv
    rw [deleteSelected, insertionSort_ge_eq_reverse, List.foldl_reverse]
    exact foldr_eraseIdx_sort_eq segments selected hnd hv
  · intro a b c
    rfl

theorem deleteSelected_spec_witness :
    (([0, 2] : List ℕ).Nodup ∧
      (∀ i ∈ ([0, 2] : List ℕ),
        i < ([⟨"0", "1", "a", "A"⟩, ⟨"1", "2", "b", "B"⟩,
              ⟨"2", "3", "c", "C"⟩] : List TranscriptSegment).length)) ∧
    deleteSelected
        [⟨"0", "1", "a", "A"⟩, ⟨"1", "2", "b", "B"⟩, ⟨"2", "3", "c", "C"⟩] [0, 2] =
      keepUnselected
        [⟨"0", "1", "a", "A"⟩, ⟨"1", "2", "b", "B"⟩, ⟨"2", "3", "c", "C"⟩] [0, 2] :=
  ⟨⟨by decide, by decide⟩, deleteSelected_spec.1 _ [0, 2] (by decide) (by decide)⟩

/-- C10: with at least two distinct valid selected indices, every unselected
segment — including segments lying strictly between two selected indices —
survives `mergeSelected` unchanged and in its original relative order: the
list of unselected elements is a sublist of the merge result. -/
theorem mergeSelected_keeps_unselected (segments : List TranscriptSegment)
    (selected : List ℕ) (hnd : selected.Nodup)
    (hv : ∀ i ∈ selected, i < segments.length) (h2 : 2 ≤ selected.length) :
    (keepUnselected segments selected).Sublist (mergeSelected segments selected) := by
  obtain ⟨hm, _, hk, _⟩ := mergeSelected_parts segments selected hnd hv h2
  rw [hm, hk]
  exact (List.append_sublist_append_left _).mpr (List.sublist_cons_self _ _)

theorem mergeSelected_keeps_unselected_witness :
    (([0, 2] : List ℕ).Nodup ∧
      (∀ i ∈ ([0, 2] : List ℕ),
        i < ([⟨"0", "1", "a", "A"⟩, ⟨"1", "2", "b", "B"⟩, ⟨"2", "3", "c", "C"⟩,
              ⟨"3", "4", "d", "D"⟩] : List TranscriptSegment).length) ∧
      2 ≤ ([0, 2] : List ℕ).length) ∧
    (keepUnselected
        [⟨"0", "1", "a", "A"⟩, ⟨"1", "2", "b", "B"⟩, ⟨"2", "3", "c", "C"⟩,
         ⟨"3", "4", "d", "D"⟩] [0, 2]).Sublist
      (mergeSelected
        [⟨"0", "1", "a", "A"⟩, ⟨"1", "2", "b", "B"⟩, ⟨"2", "3", "c", "C"⟩,
         ⟨"3", "4", "d", "D"⟩] [0, 2]) :=
  ⟨⟨by decide, by decide, by decide⟩,
   mergeSelected_keeps_unselected _ [0, 2] (by decide) (by decide) (by decide)⟩

/- ### SilenceFilter (`filterSilentSegments`, `Home.vue` lines 484-505) -/

/-- A transcript segment as consumed by `filterSilentSegments`: the time
strings abstracted as their `:`-split numeric parts. -/
structure RawSegment where
  start : List ℚ
  end_ : List ℚ
  text : String
  speaker : String
deriving Repr, DecidableEq

/-- A detected silence interval (`SilenceInterval` in `types/index.ts`,
`duration` omitted — the filter never reads it). -/
structure SilenceInterval where
  start : ℚ
  end_ : ℚ
deriving Repr, DecidableEq

/-- The local `parseTime` inside `filterSilentSegments` (`Home.vue` lines
485-490): two parts are `M:S`, three parts `H:M:S`, anything else parses
to `0`. -/
def silenceParseTime : List ℚ → ℚ
  | [m, s] => m * 60 + s
  | [h, m, s] => h * 3600 + m * 60 + s
  | _ => 0

/-- `filterSilentSegments`: drop a segment exactly when some silence interval
fully contains it (`start ≥ s.start && end ≤ s.end`). -/
def filterSilentSegments (segments : List RawSegment) (silence : List SilenceInterval) :
    List RawSegment :=
  segments.filter fun seg =>
    !(silence.any fun s =>
      decide (silenceParseTime seg.start ≥ s.start) &&
        decide (silenceParseTime seg.end_ ≤ s.end_))

/-- C8: the silence filter removes exactly the segments whose parsed interval
lies fully inside some silence interval and retains partial overlaps; the
segment `[5,9]` (parts `00:05`/`00:09`) is removed for the interval `[4,10]`
but retained for `[6,8]`. -/
theorem filterSilentSegments_spec :
    (∀ (segments : List RawSegment) (silence : List SilenceInterval) (seg : RawSegment),
      seg ∈ filterSilentSegments segments silence ↔
        seg ∈ segments ∧
          ¬ ∃ s ∈ silence, silenceParseTime seg.start ≥ s.start ∧
            silenceParseTime seg.end_ ≤ s.end_) ∧
    filterSilentSegments [⟨[0, 5], [0, 9], "x", "S"⟩] [⟨4, 10⟩] = [] ∧
    filterSilentSegments [⟨[0, 5], [0, 9], "x", "S"⟩] [⟨6, 8⟩] =
      [⟨[0, 5], [0, 9], "x", "S"⟩] := by
  refine ⟨?_, ?_, ?_⟩
  · intro segments silence seg
    rw [filterSilentSegments, List.mem_filter]
    simp [List.any_eq_true]
  · norm_num [filterSilentSegments, List.filter, silenceParseTime,
      List.any_cons, List.any_nil]
  · norm_num [filterSilentSegments, List.filter, silenceParseTime,
      List.any_cons, List.any_nil]

/- ### Response handling (`translateTranscript` lines 263-304 and the
alignment fallback in `processFile` lines 448-470 of the Home view script) -/

/-- A JSON value, the result of `JSON.parse`. -/
inductive Json where
  | null : Json
  | bool : Bool → Json
  | num : ℚ → Json
  | str : String → Json
  | arr : List Json → Json
  | obj : List (String × Json) → Json

/-- The greedy regex `/\[[\s\S]*\]/` of the response-ingestion step: the
region from the first opening bracket through the last closing bracket after
it, `none` when no such region exists. -/
def extractJson (response : String) : Option String :=
  let rest := response.toList.dropWhile (· ≠ '[')
  match (rest.reverse.dropWhile (· ≠ ']')).reverse with
  | [] => none
  | l => some (String.mk l)

/-- The reactive state `translateTranscript` touches: the Original segment
list, the per-language translations map, and the active language. -/
structure TranslationState where
  segments : List TranscriptSegment
  translations : List (String × List Json)
  currentLanguage : String

/-- `translations.value[lang]` as an association-list read. -/
def lookupTranslation (translations : List (String × List Json)) (lang : String) :
    Option (List Json) :=
  (translations.find? fun p => p.1 == lang).map Prod.snd

/-- `translateTranscript` (Home view script lines 263-304): return early on an
empty transcript; short-circuit to an existing translation; otherwise extract
the bracketed region, `JSON.parse` it (the environment parameter `parseJson`),
and only when the result is an array store it under `lang` and switch to it —
every failure lands in the `catch` and leaves the state unchanged (the status
string, not modelled, is the only thing written there). -/
def translateTranscript (parseJson : String → Option Json) (st : TranslationState)
    (lang : String) (response : String) : TranslationState :=
  if st.segments.isEmpty then st
  else if (lookupTranslation st.translations lang).isSome then
    { st with currentLanguage := lang }
  else
    match extractJson response with
    | none => st
    | some jsonText =>
      match parseJson jsonText with
      | none => st
      | some (Json.arr parsed) =>
        { st with translations := (lang, parsed) :: st.translations,
                  currentLanguage := lang }
      | some _ => st

/-- The alignment fallback in `processFile` (lines 448-470): a successful
`align_transcript` call replaces the segments, a failure (`catch`) keeps the
pre-alignment segments. -/
def applyAlignment (segments : List TranscriptSegment)
    (result : Except String (List TranscriptSegment)) : List TranscriptSegment :=
  match result with
  | Except.ok aligned => aligned
  | Except.error _ => segments

def isStringField : Option Json → Bool
  | some (Json.str _) => true
  | _ => false

/-- Modelled from the spec's data model (§3): a well-formed transcript segment
is a JSON object with string `start`, `end`, `text` and `speaker` fields. -/
def isWellFormedSegment : Json → Bool
  | Json.obj fields =>
      isStringField (fields.lookup "start") && isStringField (fields.lookup "end") &&
        isStringField (fields.lookup "text") && isStringField (fields.lookup "speaker")
  | _ => false

/-- `JSON.parse` restricted to the one response of the counterexample:
`JSON.parse("[1]")` is the array `[1]`. -/
def parseJsonCex : String → Option Json :=
  fun s => if s = "[1]" then some (Json.arr [Json.num 1]) else none

/-- A state with one transcript segment, no translations, Original active. -/
def translationStateCex : TranslationState :=
  { segments := [⟨"00:00", "00:01", "hello", "A"⟩], translations := [],
    currentLanguage := "Original" }

/-- C9 counterexample: the code checks only `Array.isArray` on the parsed
value, never that the elements are well-formed segments: the response `"[1]"`
replaces the active snapshot with the array `[1]`, whose element is not a
well-formed segment. -/
theorem translate_wellFormed_counterexample :
    (translateTranscript parseJsonCex translationStateCex "French" "[1]").translations =
      [("French", [Json.num 1])] ∧
    (translateTranscript parseJsonCex translationStateCex "French" "[1]").translations ≠
      translationStateCex.translations ∧
    (translateTranscript parseJsonCex translationStateCex "French" "[1]").currentLanguage =
      "French" ∧
    isWellFormedSegment (Json.num 1) = false := by
  refine ⟨rfl, ?_, rfl, rfl⟩
  intro hc
  exact List.noConfusion hc

/-- C9 amended: translation failure (no bracketed region, a parse error, or a
non-array parse) leaves the Original segments and the translations map
untouched and creates no language entry — the segments are in fact never
written by this path at all, and the translations map changes only when a
JSON array was extracted and parsed (its elements are not individually
validated); a failed alignment keeps the pre-alignment segment list. -/
theorem translate_align_failure_safety :
    (∀ (parseJson : String → Option Json) (st : TranslationState) (lang response : String),
      (translateTranscript parseJson st lang response).segments = st.segments) ∧
    (∀ (parseJson : String → Option Json) (st : TranslationState) (lang response : String),
      (translateTranscript parseJson st lang response).translations ≠ st.translations →
      ∃ jsonText parsed, extractJson response = some jsonText ∧
        parseJson jsonText = some (Json.arr parsed) ∧
        (translateTranscript parseJson st lang response).translations =
          (lang, parsed) :: st.translations) ∧
    (∀ (segments : List TranscriptSegment) (e : String),
      applyAlignment segments (Except.error e) = segments) := by
  refine ⟨?_, ?_, fun _ _ => rfl⟩
  · intro p st lang resp
    by_cases h1 : st.segments.isEmpty
    · simp only [translateTranscript, if_pos h1]
    · by_cases h2 : (lookupTranslation st.translations lang).isSome
      · simp only [translateTranscript, if_neg h1, if_pos h2]
      · cases he : extractJson resp with
        | none => simp only [translateTranscript, if_neg h1, if_neg h2, he]
        | some jsonText =>
          cases hp : p jsonText with
          | none => simp only [translateTranscript, if_neg h1, if_neg h2, he, hp]
          | some j =>
            cases j <;> simp only [translateTranscript, if_neg h1, if_neg h2, he, hp]
  · intro p st lang resp h
    by_cases h1 : st.segments.isEmpty
    · simp only [translateTranscript, if_pos h1] at h
      exact absurd rfl h
    by_cases h2 : (lookupTranslation st.translations lang).isSome
    · simp only [translateTranscript, if_neg h1, if_pos h2] at h
      exact absurd rfl h
    cases he : extractJson resp with
    | none =>
      simp only [translateTranscript, if_neg h1, if_neg h2, he] at h
      exact absurd rfl h
    | some jsonText =>
      cases hp : p jsonText with
      | none =>
        simp only [translateTranscript, if_neg h1, if_neg h2, he, hp] at h
        exact absurd rfl h
      | some j =>
        cases j with
        | arr parsed =>
          refine ⟨jsonText, parsed, rfl, hp, ?_⟩
          simp only [translateTranscript, if_neg h1, if_neg h2, he, hp]
        | null =>
          simp only [translateTranscript, if_neg h1, if_neg h2, he, hp] at h
          exact absurd rfl h
        | bool b =>
          simp only [translateTranscript, if_neg h1, if_neg h2, he, hp] at h
          exact absurd rfl h
        | num q =>
          simp only [translateTranscript, if_neg h1, if_neg h2, he, hp] at h
          exact absurd rfl h
        | str s =>
          simp only [translateTranscript, if_neg h1, if_neg h2, he, hp] at h
          exact absurd rfl h
        | obj fields =>
          simp only [translateTranscript, if_neg h1, if_neg h2, he, hp] at h
          exact absurd rfl h

theorem translate_align_failure_safety_witness :
    ((translateTranscript parseJsonCex translationStateCex "German" "[1]").translations ≠
      translationStateCex.translations) ∧
    (∃ jsonText parsed, extractJson "[1]" = some jsonText ∧
      parseJsonCex jsonText = some (Json.arr parsed) ∧
      (translateTranscript parseJsonCex translationStateCex "German" "[1]").translations =
        ("German", parsed) :: translationStateCex.translations) :=
  ⟨fun hc => List.noConfusion hc,
   translate_align_failure_safety.2.1 parseJsonCex translationStateCex "German" "[1]"
     (fun hc => List.noConfusion hc)⟩
